import Mathlib

/-!
# kfusion/optimisation.hpp : energy terms and parameter table

A shallow embedding of `DynamicFusionDataEnergy`, `DynamicFusionRegEnergy`
and `WarpProblem`.

Scalars.  A C++ `float`/`double` is idealised as an exact rational or the
marker `nan`; rounding and overflow are left out.  `nan` stands for every
non-finite value (a quiet NaN, or what a division by zero produces), and it
propagates through arithmetic and makes every comparison false, as in
IEEE 754.  The regularisation term and the node storage never test for NaN
and are embedded over plain rationals.

Containers.  A `std::vector` read with `operator[]` outside its bounds is
undefined behaviour, read with `at` it throws; both are explicit outcomes.
`int` and `size_t` counters are natural numbers.
-/

namespace DynamicFusion

/-! ## Scalars -/

/-- An idealised floating-point scalar: a not-a-number marker or an exact rational. -/
inductive Fl where
  | nan : Fl
  | fin (q : ℚ) : Fl
deriving DecidableEq

namespace Fl

/-- Lift of a binary rational operation, propagating `nan`. -/
def lift2 (f : ℚ → ℚ → ℚ) : Fl → Fl → Fl
  | fin a, fin b => fin (f a b)
  | _, _ => nan

instance : Add Fl := ⟨lift2 (· + ·)⟩
instance : Sub Fl := ⟨lift2 (· - ·)⟩
instance : Mul Fl := ⟨lift2 (· * ·)⟩

/-- Division; a zero divisor gives a non-finite value. -/
def div : Fl → Fl → Fl
  | fin a, fin b => if b = 0 then nan else fin (a / b)
  | _, _ => nan

instance : Div Fl := ⟨div⟩

/-- Absolute value, `ceres::abs`. -/
def abs : Fl → Fl
  | fin a => fin |a|
  | nan => nan

/-- Comparison `a <= b`; false as soon as one side is `nan`. -/
def le : Fl → Fl → Bool
  | fin a, fin b => decide (a ≤ b)
  | _, _ => false

/-- Test `std::isnan`. -/
def isnan : Fl → Bool
  | nan => true
  | fin _ => false

/-- Square, `pow(a, 2)`. -/
def sq (a : Fl) : Fl := a * a

end Fl

/-! ## Outcomes and containers -/

/-- What a call does: undefined behaviour (an unchecked read outside a
vector), an exception (`std::out_of_range` from `at`), or a normal return with
the success flag and the value written to `residuals[0]`, if any. -/
inductive Outcome (α : Type) where
  | undefinedBehaviour : Outcome α
  | outOfRange : Outcome α
  | returned (success : Bool) (residual : Option α) : Outcome α
deriving DecidableEq

/-- A `std::vector`: its size and its elements by position. -/
structure StdVector (α : Type) where
  size : Nat
  data : Nat → α

/-- Unchecked `operator[]`: `none` is a read outside the vector. -/
def StdVector.index {α : Type} (v : StdVector α) (i : Nat) : Option α :=
  if i < v.size then some (v.data i) else none

/-- Template struct `Vec2d<T>`. -/
structure Vec2d (T : Type) where
  x : T
  y : T
deriving DecidableEq

/-- Template struct `Vec3d<T>`. -/
structure Vec3d (T : Type) where
  x : T
  y : T
  z : T
deriving DecidableEq

/-- A three-component `cv::Vec3d`/`cv::Vec3f`; `c0`, `c1`, `c2` are `[0]`, `[1]`, `[2]`. -/
structure CvVec3 (T : Type) where
  c0 : T
  c1 : T
  c2 : T
deriving DecidableEq

/-- Class `kfusion::utils::Quaternion<double>`: the members `w_`, `x_`, `y_`, `z_`. -/
structure Quaternion where
  w_ : ℚ
  x_ : ℚ
  y_ : ℚ
  z_ : ℚ
deriving DecidableEq

/-- Modelled from the spec: the scalar-times-quaternion operator of the
quaternion header, which is not part of the sources; the spec's weighted sum
of quaternions is taken component by component. -/
def Quaternion.smul (s : ℚ) (q : Quaternion) : Quaternion :=
  ⟨s * q.w_, s * q.x_, s * q.y_, s * q.z_⟩

/-- Modelled from the spec: the `+=` operator of the quaternion header, which
is not part of the sources; component-wise accumulation. -/
def Quaternion.add (p q : Quaternion) : Quaternion :=
  ⟨p.w_ + q.w_, p.x_ + q.x_, p.y_ + q.y_, p.z_ + q.z_⟩

/-- Class `kfusion::utils::DualQuaternion<double>`: the members `rotation_`
and `translation_`, which `getRotation` and `getTranslation` return. -/
structure DualQuaternion where
  rotation_ : Quaternion
  translation_ : Quaternion
deriving DecidableEq

/-- Struct `kfusion::deformation_node`. -/
structure DeformationNode where
  vertex : CvVec3 ℚ
  transform : DualQuaternion
  weight : ℚ
deriving DecidableEq

/-- Camera intrinsics `kfusion::Intr`. -/
structure Intr where
  fx : Fl
  fy : Fl
  cx : Fl
  cy : Fl

/-- Conversion of a floating-point value to `size_t` in a subscript: truncation
toward zero; `none` when the truncated value is not representable (NaN, at
most -1, or at least 2^64). -/
def toIndex : Fl → Option Nat
  | Fl.nan => none
  | Fl.fin q => if q ≤ -1 ∨ 2 ^ 64 ≤ q then none else some (Int.toNat ⌊q⌋)

/-! ## Data term -/

/-- The part of `kfusion::WarpField` the data term reads: the blending
primitive `DQB_r` (given the point, the weights and the neighbour indices it
returns a dual quaternion, represented by its action `transform` on a vector),
the live vertex buffer, and the node vector that `getNodes` points to. -/
structure WarpField where
  nodes : List DeformationNode
  DQB_r : CvVec3 Fl → (Nat → Fl) → (Nat → Nat) → (CvVec3 Fl → CvVec3 Fl)
  live_vertices_ : StdVector (CvVec3 Fl)

/-- The members of `DynamicFusionDataEnergy`. -/
structure DynamicFusionDataEnergy where
  live_vertex_ : CvVec3 Fl
  live_normal_ : CvVec3 Fl
  canonical_vertex_ : CvVec3 Fl
  canonical_normal_ : CvVec3 Fl
  intr_ : Intr
  weights_ : Nat → Fl
  knn_indices_ : Nat → Nat
  warpField_ : WarpField

/-- Member `DynamicFusionDataEnergy::project`: the default-constructed point is
(0, 0) and both assignments go to its `x`. -/
def project (intr_ : Intr) (x y z : Fl) : Vec2d Fl :=
  let project_point : Vec2d Fl := ⟨Fl.fin 0, Fl.fin 0⟩
  let project_point := { project_point with x := intr_.fx * (x / z) + intr_.cy }
  let project_point := { project_point with x := intr_.fy * (y / z) + intr_.cy }
  project_point

/-- Member `DynamicFusionDataEnergy::reproject`. -/
def reproject (intr_ : Intr) (u v depth : Fl) : Vec3d Fl :=
  { x := depth * (u - intr_.cx) * intr_.fx
    y := depth * (v - intr_.cy) * intr_.fy
    z := depth }

/-- The inlier branch of `tukeyPenalty`: `x * pow(1 - (x * x) / (c * c), 2)`. -/
def tukeyInlier (x c : Fl) : Fl :=
  x * Fl.sq (Fl.fin 1 - (x * x) / (c * c))

/-- Member `DynamicFusionDataEnergy::tukeyPenalty`. -/
def tukeyPenalty (x c : Fl) : Fl :=
  if Fl.le (Fl.abs x) c then tukeyInlier x c else Fl.fin 0

/-- The default cutoff `T(0.01)` of `tukeyPenalty`. -/
def tukeyDefaultCutoff : Fl := Fl.fin (1 / 100)

/-- Member `DynamicFusionDataEnergy::operator()`.  The argument `epsilon_` is
the solver's parameter blocks. -/
def DynamicFusionDataEnergy.call (self : DynamicFusionDataEnergy)
    (_epsilon_ : Nat → Nat → Fl) : Outcome Fl :=
  let canonical_point := self.canonical_vertex_
  let canonical_point_n := self.canonical_normal_
  if Fl.isnan canonical_point.c0 && Fl.isnan canonical_point_n.c0 then
    Outcome.returned false none
  else
    let dqb := self.warpField_.DQB_r canonical_point self.weights_ self.knn_indices_
    let canonical_point := dqb canonical_point
    let canonical_point_n := dqb canonical_point_n
    let project_point :=
      project self.intr_ canonical_point.c0 canonical_point.c1 canonical_point.c2
    let project_u := project_point.x
    let project_v := project_point.y
    let live_vertices := self.warpField_.live_vertices_
    match toIndex (project_u * Fl.fin 640 + project_v) with
    | none => Outcome.undefinedBehaviour
    | some idx =>
      match live_vertices.index idx with
      | none => Outcome.undefinedBehaviour
      | some live =>
        let depth := live.c2
        let reproject_point := reproject self.intr_ project_u project_v depth
        let reproject_x := reproject_point.x
        let reproject_y := reproject_point.y
        let reproject_z := reproject_point.z
        let residual_temp :=
          canonical_point_n.c0 * (canonical_point.c0 - reproject_x) +
          canonical_point_n.c1 * (canonical_point.c1 - reproject_y) +
          canonical_point_n.c2 * (canonical_point.c2 - reproject_z)
        Outcome.returned true (some (tukeyPenalty residual_temp tukeyDefaultCutoff))

/-! ### Concrete inputs -/

/-- Intrinsics fx = fy = 525, cx = 320, cy = 240. -/
def intr525 : Intr := ⟨Fl.fin 525, Fl.fin 525, Fl.fin 320, Fl.fin 240⟩

/-! ## Regularisation term -/

/-- A 3x3 matrix `cv::Matx33f`, by rows. -/
structure Matx33 where
  r0 : CvVec3 ℚ
  r1 : CvVec3 ℚ
  r2 : CvVec3 ℚ
deriving DecidableEq

/-- Dot product of two vectors. -/
def CvVec3.dot (a b : CvVec3 ℚ) : ℚ := a.c0 * b.c0 + a.c1 * b.c1 + a.c2 * b.c2

/-- Sum of two vectors. -/
def CvVec3.add (a b : CvVec3 ℚ) : CvVec3 ℚ := ⟨a.c0 + b.c0, a.c1 + b.c1, a.c2 + b.c2⟩

/-- Difference of two vectors. -/
def CvVec3.sub (a b : CvVec3 ℚ) : CvVec3 ℚ := ⟨a.c0 - b.c0, a.c1 - b.c1, a.c2 - b.c2⟩

/-- Matrix times vector. -/
def Matx33.mulVec (m : Matx33) (v : CvVec3 ℚ) : CvVec3 ℚ :=
  ⟨m.r0.dot v, m.r1.dot v, m.r2.dot v⟩

/-- First column of a matrix. -/
def Matx33.col0 (m : Matx33) : CvVec3 ℚ := ⟨m.r0.c0, m.r1.c0, m.r2.c0⟩
/-- Second column of a matrix. -/
def Matx33.col1 (m : Matx33) : CvVec3 ℚ := ⟨m.r0.c1, m.r1.c1, m.r2.c1⟩
/-- Third column of a matrix. -/
def Matx33.col2 (m : Matx33) : CvVec3 ℚ := ⟨m.r0.c2, m.r1.c2, m.r2.c2⟩

/-- Matrix product. -/
def Matx33.mul (a b : Matx33) : Matx33 :=
  ⟨⟨a.r0.dot b.col0, a.r0.dot b.col1, a.r0.dot b.col2⟩,
   ⟨a.r1.dot b.col0, a.r1.dot b.col1, a.r1.dot b.col2⟩,
   ⟨a.r2.dot b.col0, a.r2.dot b.col1, a.r2.dot b.col2⟩⟩

/-- An affine map `cv::Affine3f`: linear part and translation. -/
structure Affine3 where
  linear : Matx33
  translation : CvVec3 ℚ
deriving DecidableEq

/-- The functions the regularisation term calls that are defined outside this
header: `<cmath>`, the rotation-vector constructor of `cv::Affine3f`, and the
encoders of the dual-quaternion class. -/
structure Prims where
  sqrt : ℚ → ℚ
  atan2 : ℚ → ℚ → ℚ
  asin : ℚ → ℚ
  M_PI : ℚ
  rodrigues : CvVec3 ℚ → Matx33
  dqDefault : DualQuaternion
  encodeRotation : DualQuaternion → ℚ → ℚ → ℚ → DualQuaternion
  encodeTranslation : DualQuaternion → ℚ → ℚ → ℚ → DualQuaternion

/-- Constructor `cv::Affine3f(rvec, t)`: the rotation vector is turned into a
rotation matrix. -/
def Affine3.ofRvec (P : Prims) (rvec t : CvVec3 ℚ) : Affine3 := ⟨P.rodrigues rvec, t⟩

/-- Member `cv::Affine3f::concatenate`: `a.concatenate(b)` is `a` rotated by the
linear part of `b`, then translated by the translation of `b`. -/
def Affine3.concatenate (a b : Affine3) : Affine3 :=
  ⟨b.linear.mul a.linear, (b.linear.mulVec a.translation).add b.translation⟩

/-- Operator `Affine3f * Vec3f`: the image of a point. -/
def Affine3.apply (a : Affine3) (p : CvVec3 ℚ) : CvVec3 ℚ :=
  (a.linear.mulVec p).add a.translation

/-- Function `copysign` of `<cmath>`. -/
def copysign (a b : ℚ) : ℚ := if b < 0 then -|a| else |a|

/-- The members of `DynamicFusionRegEnergy`. -/
structure DynamicFusionRegEnergy where
  nodes_ : List DeformationNode
  ret_index_ : List Nat
  weights_ : Nat → ℚ
  inverse_pose_ : Affine3

/-- The threshold `delta` of `DynamicFusionRegEnergy::operator()`. -/
def huberDelta : ℚ := 1 / 10000

/-- The Huber expression of `DynamicFusionRegEnergy::operator()`:
`dist <= delta ? dist * dist / 2 : delta * dist - delta * delta / 2`. -/
def huber (delta dist : ℚ) : ℚ :=
  if dist ≤ delta then dist * dist / 2 else delta * dist - delta * delta / 2

/-- First loop of `DynamicFusionRegEnergy::operator()`: the weighted sums of
the rotation and translation quaternions of the encoded parameter blocks. -/
def quaternionSums (P : Prims) (weights_ : Nat → ℚ) (epsilon_ : Nat → Nat → ℚ)
    (K : Nat) : Quaternion × Quaternion :=
  (List.range K).foldl
    (fun acc i =>
      let temp := P.dqDefault
      let temp := P.encodeRotation temp (epsilon_ i 0) (epsilon_ i 1) (epsilon_ i 2)
      let temp := P.encodeTranslation temp (epsilon_ i 3) (epsilon_ i 4) (epsilon_ i 5)
      let rotation := temp.rotation_
      let translation := temp.translation_
      (acc.1.add (Quaternion.smul (weights_ i) rotation),
       acc.2.add (Quaternion.smul (weights_ i) translation)))
    (⟨0, 0, 0, 0⟩, ⟨0, 0, 0, 0⟩)

/-- The value given to the `i_rot` that is declared inside the two branches of
the `if (fabs(sinp) >= 1)` statement of `DynamicFusionRegEnergy::operator()`. -/
def branchLocalIRot (P : Prims) (rotation_sum : Quaternion) : CvVec3 ℚ :=
  let sinr := 2 * (rotation_sum.w_ * rotation_sum.x_ + rotation_sum.y_ * rotation_sum.z_)
  let cosr := 1 - 2 * (rotation_sum.x_ ^ 2 + rotation_sum.y_ ^ 2)
  let siny := 2 * (rotation_sum.w_ * rotation_sum.z_ + rotation_sum.x_ * rotation_sum.y_)
  let cosy := 1 - 2 * (rotation_sum.y_ * rotation_sum.y_ + rotation_sum.z_ * rotation_sum.z_)
  let sinp := 2 * (rotation_sum.w_ * rotation_sum.y_ - rotation_sum.z_ * rotation_sum.x_)
  if |sinp| ≥ 1 then
    ⟨P.atan2 sinr cosr, copysign (P.M_PI / 2) sinp, P.atan2 siny cosy⟩
  else
    ⟨P.atan2 sinr cosr, P.asin sinp, P.atan2 siny cosy⟩

/-- The transform `i_warp` of `DynamicFusionRegEnergy::operator()`.  The `i_rot`
it is built from is the one declared before the `if` statement, which is
default-constructed (all zero) and never assigned: each branch declares a new
`i_rot` of its own (`branchLocalIRot`) that ends with the branch. -/
def iWarp (P : Prims) (weights_ : Nat → ℚ) (epsilon_ : Nat → Nat → ℚ) (K : Nat) : Affine3 :=
  let translation_sum := (quaternionSums P weights_ epsilon_ K).2
  let i_rot : CvVec3 ℚ := ⟨0, 0, 0⟩
  let i_trans : CvVec3 ℚ := ⟨translation_sum.x_, translation_sum.y_, translation_sum.z_⟩
  Affine3.ofRvec P i_rot i_trans

/-- The transform `j_warp` of neighbour `i` in `DynamicFusionRegEnergy::operator()`. -/
def jWarp (P : Prims) (epsilon_ : Nat → Nat → ℚ) (i : Nat) : Affine3 :=
  let j_rot : CvVec3 ℚ := ⟨epsilon_ i 0, epsilon_ i 1, epsilon_ i 2⟩
  let j_trans : CvVec3 ℚ := ⟨epsilon_ i 3, epsilon_ i 4, epsilon_ i 5⟩
  Affine3.ofRvec P j_rot j_trans

/-- Second loop of `DynamicFusionRegEnergy::operator()` over the remaining
neighbour positions, with the running `sum_j`, followed by the store to
`residuals[0]` and `return true`. -/
def regLoop (P : Prims) (self : DynamicFusionRegEnergy) (epsilon_ : Nat → Nat → ℚ)
    (Tic : Affine3) : List Nat → ℚ → Outcome ℚ
  | [], sum_j => Outcome.returned true (some sum_j)
  | i :: rest, sum_j =>
    match self.ret_index_[i]? with
    | none => Outcome.undefinedBehaviour
    | some idx =>
      match self.nodes_[idx]? with
      | none => Outcome.outOfRange
      | some node =>
        let j_point := node.vertex
        let Tjc := self.inverse_pose_.concatenate (jWarp P epsilon_ i)
        let difference := (Tic.apply j_point).sub (Tjc.apply j_point)
        let dist := P.sqrt (difference.c0 ^ 2 + difference.c1 ^ 2 + difference.c2 ^ 2)
        let huber := huber huberDelta dist
        regLoop P self epsilon_ Tic rest (sum_j + self.weights_ i * huber)

/-- Member `DynamicFusionRegEnergy::operator()` for `KNN_NEIGHBOURS = K`. -/
def DynamicFusionRegEnergy.call (P : Prims) (K : Nat) (self : DynamicFusionRegEnergy)
    (epsilon_ : Nat → Nat → ℚ) : Outcome ℚ :=
  let i_warp := iWarp P self.weights_ epsilon_ K
  let Tic := self.inverse_pose_.concatenate i_warp
  regLoop P self epsilon_ Tic (List.range K) 0

/-! ## Parameter table -/

/-- The eight scalar members of a node transform whose address `WarpProblem` takes. -/
inductive Slot where
  | rotation_w | rotation_x | rotation_y | rotation_z
  | translation_w | translation_x | translation_y | translation_z
deriving DecidableEq

/-- A non-null `double*` of the parameter table: the address of member `slot`
of `getNodes()->at(node).transform`. -/
structure Addr where
  node : Nat
  slot : Slot
deriving DecidableEq

/-- Reading one scalar member of a transform. -/
def Slot.get (s : Slot) (t : DualQuaternion) : ℚ :=
  match s with
  | rotation_w => t.rotation_.w_
  | rotation_x => t.rotation_.x_
  | rotation_y => t.rotation_.y_
  | rotation_z => t.rotation_.z_
  | translation_w => t.translation_.w_
  | translation_x => t.translation_.x_
  | translation_y => t.translation_.y_
  | translation_z => t.translation_.z_

/-- Writing one scalar member of a transform. -/
def Slot.set (s : Slot) (t : DualQuaternion) (v : ℚ) : DualQuaternion :=
  match s with
  | rotation_w => { t with rotation_ := { t.rotation_ with w_ := v } }
  | rotation_x => { t with rotation_ := { t.rotation_ with x_ := v } }
  | rotation_y => { t with rotation_ := { t.rotation_ with y_ := v } }
  | rotation_z => { t with rotation_ := { t.rotation_ with z_ := v } }
  | translation_w => { t with translation_ := { t.translation_ with w_ := v } }
  | translation_x => { t with translation_ := { t.translation_ with x_ := v } }
  | translation_y => { t with translation_ := { t.translation_ with y_ := v } }
  | translation_z => { t with translation_ := { t.translation_ with z_ := v } }

/-- Dereferencing an address for reading, `*p`: the member it points to in the
node vector (`none` when the node does not exist). -/
def load (nodes : List DeformationNode) (p : Addr) : Option ℚ :=
  (nodes[p.node]?).map (fun n => p.slot.get n.transform)

/-- Dereferencing an address for writing, `*p = v`: the node vector afterwards. -/
def store (nodes : List DeformationNode) (p : Addr) (v : ℚ) : List DeformationNode :=
  List.modify (fun n => { n with transform := p.slot.set n.transform v }) p.node nodes

/-- The members of `WarpProblem`; a null pointer of `parameters_` is `none`. -/
structure WarpProblem where
  parameters_ : List (Option Addr)
  warpField_ : WarpField

/-- One pass of the constructor loop of `WarpProblem`, for node `i`. -/
def ctorStep (parameters_ : List (Option Addr)) (i : Nat) : List (Option Addr) :=
  let parameters_ := parameters_.set (i * 8 + 0) (some ⟨i, Slot.rotation_w⟩)
  let parameters_ := parameters_.set (i * 8 + 1) (some ⟨i, Slot.rotation_x⟩)
  let parameters_ := parameters_.set (i * 8 + 2) (some ⟨i, Slot.rotation_y⟩)
  let parameters_ := parameters_.set (i * 8 + 3) (some ⟨i, Slot.rotation_z⟩)
  let parameters_ := parameters_.set (i * 8 + 4) (some ⟨i, Slot.translation_w⟩)
  let parameters_ := parameters_.set (i * 8 + 5) (some ⟨i, Slot.translation_x⟩)
  let parameters_ := parameters_.set (i * 8 + 6) (some ⟨i, Slot.translation_y⟩)
  let parameters_ := parameters_.set (i * 8 + 7) (some ⟨i, Slot.translation_z⟩)
  parameters_

/-- Constructor `WarpProblem::WarpProblem`: `resize` fills the table with null
pointers, the loop then stores the eight addresses of every node. -/
def WarpProblem.new (warp : WarpField) : WarpProblem :=
  let parameters_ : List (Option Addr) := List.replicate (warp.nodes.length * 8) none
  let parameters_ := (List.range warp.nodes.length).foldl ctorStep parameters_
  { parameters_ := parameters_, warpField_ := warp }

/-- Member `WarpProblem::params`: the parameter table. -/
def WarpProblem.params (self : WarpProblem) : List (Option Addr) := self.parameters_

/-- The loop shared by both overloads of `mutable_epsilon`, over the remaining
positions; `none` is an unchecked read outside `index_list` or `parameters_`. -/
def mutableEpsilonLoop (parameters_ : List (Option Addr)) (index_list : List Nat) :
    List Nat → List (Option Addr) → Option (List (Option Addr))
  | [], mutable_epsilon_ => some mutable_epsilon_
  | i :: rest, mutable_epsilon_ =>
    match index_list[i]? with
    | none => none
    | some n =>
      match parameters_[n * 8]? with
      | none => none
      | some p => mutableEpsilonLoop parameters_ index_list rest (mutable_epsilon_.set i p)

/-- Member `WarpProblem::mutable_epsilon(const unsigned long *index_list)` for
`KNN_NEIGHBOURS = K`; `index_list` is the array the pointer refers to. -/
def WarpProblem.mutable_epsilon_ptr (self : WarpProblem) (K : Nat) (index_list : List Nat) :
    Option (List (Option Addr)) :=
  mutableEpsilonLoop self.parameters_ index_list (List.range K) (List.replicate K none)

/-- Member `WarpProblem::mutable_epsilon(const std::vector<size_t> &index_list)`
for `KNN_NEIGHBOURS = K`. -/
def WarpProblem.mutable_epsilon_vec (self : WarpProblem) (K : Nat) (index_list : List Nat) :
    Option (List (Option Addr)) :=
  mutableEpsilonLoop self.parameters_ index_list (List.range K) (List.replicate K none)

/-- The slot named by position `k` of a node block, in the order rotation
(w, x, y, z), translation (w, x, y, z). -/
def Slot.ofPos (k : Nat) : Slot :=
  match k with
  | 0 => Slot.rotation_w
  | 1 => Slot.rotation_x
  | 2 => Slot.rotation_y
  | 3 => Slot.rotation_z
  | 4 => Slot.translation_w
  | 5 => Slot.translation_x
  | 6 => Slot.translation_y
  | _ => Slot.translation_z

/-! ## Reference formulas and concrete inputs -/

/-- The pinhole projection as the specification words it:
`u = fx * x / z + cx`, `v = fy * y / z + cy`. -/
def pinholeProjection (intr_ : Intr) (x y z : Fl) : Vec2d Fl :=
  { x := intr_.fx * x / z + intr_.cx
    y := intr_.fy * y / z + intr_.cy }

/-- The inverse pinhole relation as the specification words it:
`x = depth * (u - cx) / fx`, `y = depth * (v - cy) / fy`, `z = depth`. -/
def inversePinhole (intr_ : Intr) (u v depth : Fl) : Vec3d Fl :=
  { x := depth * (u - intr_.cx) / intr_.fx
    y := depth * (v - intr_.cy) / intr_.fy
    z := depth }

/-- A warp field without nodes whose blended transform is the identity and
whose live buffer has 640 x 480 vertices, given by position. -/
def identityWarp (live : Nat → CvVec3 Fl) : WarpField :=
  { nodes := []
    DQB_r := fun _ _ _ => id
    live_vertices_ := ⟨640 * 480, live⟩ }

/-- A data term with intrinsics 525/525/320/240 and the canonical point
(0, 0, 1) over an identity warp field. -/
def scenarioTerm (normal : CvVec3 Fl) (live : Nat → CvVec3 Fl) : DynamicFusionDataEnergy :=
  { live_vertex_ := ⟨Fl.fin 0, Fl.fin 0, Fl.fin 1⟩
    live_normal_ := ⟨Fl.fin 0, Fl.fin 0, Fl.fin 1⟩
    canonical_vertex_ := ⟨Fl.fin 0, Fl.fin 0, Fl.fin 1⟩
    canonical_normal_ := normal
    intr_ := intr525
    weights_ := fun _ => Fl.fin 0
    knn_indices_ := fun _ => 0
    warpField_ := identityWarp live }

/-- A live buffer with depth 1 at every pixel. -/
def flatLive : Nat → CvVec3 Fl := fun _ => ⟨Fl.fin 0, Fl.fin 0, Fl.fin 1⟩

/-- A live buffer with depth 1 at every pixel, pixel (320, 240) included, but
depth 255/256 at position 240 * 640 + 0. -/
def dentedLive : Nat → CvVec3 Fl := fun i =>
  if i = 153600 then ⟨Fl.fin 0, Fl.fin 0, Fl.fin (255 / 256)⟩
  else ⟨Fl.fin 0, Fl.fin 0, Fl.fin 1⟩

/-- Parameter blocks that are all zero. -/
def zeroBlocks : Nat → Nat → Fl := fun _ _ => Fl.fin 0

/-- A node at the origin with the identity transform. -/
def node0 : DeformationNode :=
  { vertex := ⟨0, 0, 0⟩, transform := ⟨⟨1, 0, 0, 0⟩, ⟨0, 0, 0, 0⟩⟩, weight := 1 }

/-- A node at (1, 2, 3) with a translated transform. -/
def node1 : DeformationNode :=
  { vertex := ⟨1, 2, 3⟩, transform := ⟨⟨1, 0, 0, 0⟩, ⟨0, 1, 1, 1⟩⟩, weight := 1 }

/-- A warp field with the two nodes `node0`, `node1`. -/
def twoNodeWarp : WarpField :=
  { nodes := [node0, node1]
    DQB_r := fun _ _ _ => id
    live_vertices_ := ⟨0, fun _ => ⟨Fl.fin 0, Fl.fin 0, Fl.fin 0⟩⟩ }

/-- Rational stand-ins for the external functions, exact at zero: one Newton
step from 1 for the square root, the first-order rotation matrix
`I + [r]x` for a rotation vector `r`, the small-angle quaternion
(1, roll/2, pitch/2, yaw/2), and the translation quaternion
`0.5 * (0, x, y, z) * rotation_`. -/
def ratPrims : Prims :=
  { sqrt := fun q => if q = 0 then 0 else (q + 1) / 2
    atan2 := fun y x => if x = 0 then 0 else y / x
    asin := fun x => x
    M_PI := 355 / 113
    rodrigues := fun r => ⟨⟨1, -r.c2, r.c1⟩, ⟨r.c2, 1, -r.c0⟩, ⟨-r.c1, r.c0, 1⟩⟩
    dqDefault := ⟨⟨1, 0, 0, 0⟩, ⟨0, 0, 0, 0⟩⟩
    encodeRotation := fun dq roll pitch yaw =>
      { dq with rotation_ := ⟨1, roll / 2, pitch / 2, yaw / 2⟩ }
    encodeTranslation := fun dq x y z =>
      let r := dq.rotation_
      { dq with translation_ :=
          ⟨-(x * r.x_ + y * r.y_ + z * r.z_) / 2,
           (x * r.w_ + y * r.z_ - z * r.y_) / 2,
           (y * r.w_ + z * r.x_ - x * r.z_) / 2,
           (z * r.w_ + x * r.y_ - y * r.x_) / 2⟩ } }

/-- A regularisation term over `node0`, `node1` with both weights 1 and an
inverse pose that translates by (1, 0, 0). -/
def consensusTerm : DynamicFusionRegEnergy :=
  { nodes_ := [node0, node1]
    ret_index_ := [0, 1]
    weights_ := fun _ => 1
    inverse_pose_ := ⟨⟨⟨1, 0, 0⟩, ⟨0, 1, 0⟩, ⟨0, 0, 1⟩⟩, ⟨1, 0, 0⟩⟩ }

/-- Parameter blocks with zero rotation and translation (1, 2, 3) for every
neighbour. -/
def consensusBlocks : Nat → Nat → ℚ := fun _ k =>
  match k with
  | 3 => 1
  | 4 => 2
  | 5 => 3
  | _ => 0

/-- The `dist` of neighbour `i` in the second loop of
`DynamicFusionRegEnergy::operator()`, for a given `Tic` (0 when the loop does
not reach the computation because the index or the node does not exist). -/
def neighbourDist (P : Prims) (self : DynamicFusionRegEnergy) (epsilon_ : Nat → Nat → ℚ)
    (Tic : Affine3) (i : Nat) : ℚ :=
  match self.ret_index_[i]? with
  | none => 0
  | some idx =>
    match self.nodes_[idx]? with
    | none => 0
    | some node =>
      let j_point := node.vertex
      let Tjc := self.inverse_pose_.concatenate (jWarp P epsilon_ i)
      let difference := (Tic.apply j_point).sub (Tjc.apply j_point)
      P.sqrt (difference.c0 ^ 2 + difference.c1 ^ 2 + difference.c2 ^ 2)

/-- The blended transform as the specification words it: its orientation is the
Euler triple decoded from the accumulated rotation quaternion. -/
def iWarpDecoded (P : Prims) (weights_ : Nat → ℚ) (epsilon_ : Nat → Nat → ℚ) (K : Nat) :
    Affine3 :=
  let sums := quaternionSums P weights_ epsilon_ K
  let i_rot := branchLocalIRot P sums.1
  let i_trans : CvVec3 ℚ := ⟨sums.2.x_, sums.2.y_, sums.2.z_⟩
  Affine3.ofRvec P i_rot i_trans

/-- Parameter blocks with roll 1 and every other scalar 0. -/
def rollBlocks : Nat → Nat → ℚ := fun _ k =>
  match k with
  | 0 => 1
  | _ => 0

/-- The blocks `consensusBlocks` with other values at positions 6 and 7. -/
def paddedBlocks : Nat → Nat → ℚ := fun i k =>
  match k with
  | 6 => 11
  | 7 => 13
  | _ => consensusBlocks i k

/-- A regularisation term over `node0`, `node1` whose second neighbour index, 5,
is not a position of the node vector. -/
def badIndexTerm : DynamicFusionRegEnergy :=
  { nodes_ := [node0, node1]
    ret_index_ := [0, 5]
    weights_ := fun _ => 1
    inverse_pose_ := ⟨⟨⟨1, 0, 0⟩, ⟨0, 1, 0⟩, ⟨0, 0, 1⟩⟩, ⟨1, 0, 0⟩⟩ }

/-- A regularisation term over `node0`, `node1` with the weights 1/2 and 1/2
and an inverse pose that translates by (1, 0, 0). -/
def halfWeightTerm : DynamicFusionRegEnergy :=
  { nodes_ := [node0, node1]
    ret_index_ := [0, 1]
    weights_ := fun _ => 1 / 2
    inverse_pose_ := ⟨⟨⟨1, 0, 0⟩, ⟨0, 1, 0⟩, ⟨0, 0, 1⟩⟩, ⟨1, 0, 0⟩⟩ }

/-! # Theorems -/

namespace Fl

@[simp] theorem fin_add (a b : ℚ) : fin a + fin b = fin (a + b) := rfl
@[simp] theorem fin_sub (a b : ℚ) : fin a - fin b = fin (a - b) := rfl
@[simp] theorem fin_mul (a b : ℚ) : fin a * fin b = fin (a * b) := rfl
@[simp] theorem fin_div (a b : ℚ) :
    fin a / fin b = if b = 0 then nan else fin (a / b) := rfl
@[simp] theorem nan_add (a : Fl) : nan + a = nan := rfl
@[simp] theorem add_nan (a : Fl) : a + nan = nan := by cases a <;> rfl
@[simp] theorem nan_sub (a : Fl) : nan - a = nan := rfl
@[simp] theorem sub_nan (a : Fl) : a - nan = nan := by cases a <;> rfl
@[simp] theorem nan_mul (a : Fl) : nan * a = nan := rfl
@[simp] theorem mul_nan (a : Fl) : a * nan = nan := by cases a <;> rfl
@[simp] theorem abs_fin (a : ℚ) : abs (fin a) = fin |a| := rfl
@[simp] theorem abs_nan : abs nan = nan := rfl
@[simp] theorem le_fin (a b : ℚ) : le (fin a) (fin b) = decide (a ≤ b) := rfl
@[simp] theorem le_nan_left (a : Fl) : le nan a = false := rfl
@[simp] theorem le_nan_right (a : Fl) : le a nan = false := by cases a <;> rfl
@[simp] theorem isnan_fin (a : ℚ) : isnan (fin a) = false := rfl
@[simp] theorem isnan_nan : isnan nan = true := rfl
@[simp] theorem sq_fin (a : ℚ) : sq (fin a) = fin (a * a) := rfl

end Fl

/-! ## Data term -/

/-- C1: at intrinsics 525/525/320/240 and the point (0, 0, 1) `project` returns
(240, 0), not the pinhole pixel (320, 240): both assignments go to the first
coordinate and both add `cy`. -/
theorem project_conflates_axes :
    project intr525 (Fl.fin 0) (Fl.fin 0) (Fl.fin 1) = ⟨Fl.fin 240, Fl.fin 0⟩ ∧
    pinholeProjection intr525 (Fl.fin 0) (Fl.fin 0) (Fl.fin 1) = ⟨Fl.fin 320, Fl.fin 240⟩ ∧
    project intr525 (Fl.fin 0) (Fl.fin 0) (Fl.fin 1) ≠
      pinholeProjection intr525 (Fl.fin 0) (Fl.fin 0) (Fl.fin 1) := by
  have h1 : project intr525 (Fl.fin 0) (Fl.fin 0) (Fl.fin 1) = ⟨Fl.fin 240, Fl.fin 0⟩ := by
    simp [project, intr525]
  have h2 : pinholeProjection intr525 (Fl.fin 0) (Fl.fin 0) (Fl.fin 1)
      = ⟨Fl.fin 320, Fl.fin 240⟩ := by
    simp [pinholeProjection, intr525]
  refine ⟨h1, h2, ?_⟩
  rw [h1, h2]
  simp

/-- C2: at intrinsics 525/525/320/240, pixel (845, 765) and depth 2 `reproject`
returns (551250, 551250, 2), not the inverse pinhole point (2, 2, 2): it
multiplies by the focal lengths where the inverse relation divides. -/
theorem reproject_multiplies_focal :
    reproject intr525 (Fl.fin 845) (Fl.fin 765) (Fl.fin 2)
      = ⟨Fl.fin 551250, Fl.fin 551250, Fl.fin 2⟩ ∧
    inversePinhole intr525 (Fl.fin 845) (Fl.fin 765) (Fl.fin 2)
      = ⟨Fl.fin 2, Fl.fin 2, Fl.fin 2⟩ ∧
    reproject intr525 (Fl.fin 845) (Fl.fin 765) (Fl.fin 2) ≠
      inversePinhole intr525 (Fl.fin 845) (Fl.fin 765) (Fl.fin 2) := by
  have h1 : reproject intr525 (Fl.fin 845) (Fl.fin 765) (Fl.fin 2)
      = ⟨Fl.fin 551250, Fl.fin 551250, Fl.fin 2⟩ := by
    simp [reproject, intr525]
    norm_num
  have h2 : inversePinhole intr525 (Fl.fin 845) (Fl.fin 765) (Fl.fin 2)
      = ⟨Fl.fin 2, Fl.fin 2, Fl.fin 2⟩ := by
    simp [inversePinhole, intr525]
    norm_num
  refine ⟨h1, h2, ?_⟩
  rw [h1, h2]
  simp

/-- C3: a data term whose canonical normal is (NaN, 0, 0) and whose canonical
vertex is the valid point (0, 0, 1) is not rejected: the guard asks for a NaN in
both first components, so the call goes on, returns success and writes the
residual 0. -/
theorem nan_normal_not_rejected :
    (scenarioTerm ⟨Fl.nan, Fl.fin 0, Fl.fin 0⟩ flatLive).call zeroBlocks
      = Outcome.returned true (some (Fl.fin 0)) ∧
    (scenarioTerm ⟨Fl.nan, Fl.fin 0, Fl.fin 0⟩ flatLive).call zeroBlocks
      ≠ Outcome.returned false none := by
  have h : (scenarioTerm ⟨Fl.nan, Fl.fin 0, Fl.fin 0⟩ flatLive).call zeroBlocks
      = Outcome.returned true (some (Fl.fin 0)) := by
    simp [DynamicFusionDataEnergy.call, scenarioTerm, identityWarp, flatLive, project,
      reproject, intr525, toIndex, StdVector.index, tukeyPenalty]
    norm_num
  refine ⟨h, ?_⟩
  rw [h]
  simp

/-- C4: in the scenario fx = fy = 525, cx = 320, cy = 240, canonical point
(0, 0, 1), identity blended transform, canonical normal (0, 0, 1), and a live
buffer whose depth is 1 at pixel (320, 240) (in either index order), the call
reads the depth at position 240 * 640 + 0 instead; when that depth is 255/256
the residual written is not 0. -/
theorem scenario_residual_nonzero :
    (dentedLive (240 * 640 + 320)).c2 = Fl.fin 1 ∧
    (dentedLive (320 * 640 + 240)).c2 = Fl.fin 1 ∧
    (scenarioTerm ⟨Fl.fin 0, Fl.fin 0, Fl.fin 1⟩ dentedLive).call zeroBlocks
      = Outcome.returned true (some (Fl.fin (12047841 / 4294967296))) ∧
    (scenarioTerm ⟨Fl.fin 0, Fl.fin 0, Fl.fin 1⟩ dentedLive).call zeroBlocks
      ≠ Outcome.returned true (some (Fl.fin 0)) := by
  have h : (scenarioTerm ⟨Fl.fin 0, Fl.fin 0, Fl.fin 1⟩ dentedLive).call zeroBlocks
      = Outcome.returned true (some (Fl.fin (12047841 / 4294967296))) := by
    have hidx : toIndex (Fl.fin (240 * 640)) = some 153600 := by
      simp [toIndex]
      norm_num
      rfl
    simp [DynamicFusionDataEnergy.call, scenarioTerm, identityWarp, dentedLive, project,
      reproject, intr525, StdVector.index, tukeyPenalty, tukeyInlier,
      tukeyDefaultCutoff]
    rw [hidx]
    simp
    norm_num [abs_of_pos]
  refine ⟨by simp [dentedLive], by simp [dentedLive], h, ?_⟩
  rw [h]
  simp

/-! ## Robust losses -/

/-- The inlier formula vanishes where the magnitude equals the cutoff. -/
theorem tukeyInlier_boundary (c x : ℚ) (hc : 0 < c) (hx : |x| = c) :
    tukeyInlier (Fl.fin x) (Fl.fin c) = Fl.fin 0 := by
  have hcc : c * c ≠ 0 := mul_ne_zero hc.ne' hc.ne'
  have hxx : x * x = c * c := by rw [← abs_mul_abs_self x, hx]
  simp [tukeyInlier, hc.ne', hxx, div_self hcc]

/-- Up to the cutoff the penalty is the inlier formula x * (1 - (x / c)^2)^2. -/
theorem tukeyPenalty_inlier_formula (c x : ℚ) (hc : 0 < c) (hx : |x| ≤ c) :
    tukeyPenalty (Fl.fin x) (Fl.fin c) = Fl.fin (x * (1 - (x / c) ^ 2) ^ 2) := by
  unfold tukeyPenalty tukeyInlier
  rw [if_pos (by simp [hx])]
  simp [hc.ne']
  left
  field_simp
  ring

/-- Above the cutoff the penalty is 0. -/
theorem tukeyPenalty_outlier (c x : ℚ) (hx : c < |x|) :
    tukeyPenalty (Fl.fin x) (Fl.fin c) = Fl.fin 0 := by
  unfold tukeyPenalty
  rw [if_neg (by simp [hx])]

/-- C5: for a cutoff c > 0 and |x| >= c, `tukeyPenalty` is exactly 0; the
inlier formula is 0 at x = c and at x = -c, in particular at x = c = 0.01; and
the penalty is continuous at the cutoff: it is as small as wanted for every
argument close enough to c. -/
theorem tukeyPenalty_zero_from_cutoff (c x : ℚ) (hc : 0 < c) (hx : c ≤ |x|) :
    tukeyPenalty (Fl.fin x) (Fl.fin c) = Fl.fin 0 ∧
    tukeyInlier (Fl.fin c) (Fl.fin c) = Fl.fin 0 ∧
    tukeyInlier (Fl.fin (-c)) (Fl.fin c) = Fl.fin 0 ∧
    tukeyPenalty (Fl.fin (1 / 100)) tukeyDefaultCutoff = Fl.fin 0 ∧
    tukeyInlier (Fl.fin (1 / 100)) tukeyDefaultCutoff = Fl.fin 0 ∧
    ∀ ε : ℚ, 0 < ε → ∃ δ : ℚ, 0 < δ ∧ ∀ y : ℚ, |y - c| < δ →
      ∃ r : ℚ, tukeyPenalty (Fl.fin y) (Fl.fin c) = Fl.fin r ∧ |r| < ε := by
  have h100 : (0 : ℚ) < 1 / 100 := by norm_num
  have habs : |(1 / 100 : ℚ)| = 1 / 100 := abs_of_pos h100
  refine ⟨?_, tukeyInlier_boundary c c hc (abs_of_pos hc),
    tukeyInlier_boundary c (-c) hc (by rw [abs_neg, abs_of_pos hc]), ?_,
    tukeyInlier_boundary (1 / 100) (1 / 100) h100 habs, ?_⟩
  · unfold tukeyPenalty
    by_cases h : |x| ≤ c
    · have he : |x| = c := le_antisymm h hx
      simp [h, tukeyInlier_boundary c x hc he]
    · simp [h]
  · unfold tukeyPenalty tukeyDefaultCutoff
    have hle : Fl.le (Fl.abs (Fl.fin (1 / 100))) (Fl.fin (1 / 100)) = true := by
      rw [Fl.abs_fin, Fl.le_fin, habs]
      simp
    rw [if_pos hle]
    exact tukeyInlier_boundary (1 / 100) (1 / 100) h100 habs
  · intro ε hε
    refine ⟨min c (ε / 2), lt_min hc (by linarith), ?_⟩
    intro y hy
    have hyc : |y - c| < c := lt_of_lt_of_le hy (min_le_left _ _)
    have hye : |y - c| < ε / 2 := lt_of_lt_of_le hy (min_le_right _ _)
    have hy0 : 0 < y := by
      have := (abs_lt.mp hyc).1
      linarith
    by_cases hle : y ≤ c
    · have hay : |y| ≤ c := by rwa [abs_of_pos hy0]
      refine ⟨_, tukeyPenalty_inlier_formula c y hc hay, ?_⟩
      have ht0 : 0 < y / c := div_pos hy0 hc
      have ht1 : y / c ≤ 1 := (div_le_one hc).mpr hle
      have hyt : y = y / c * c := by field_simp
      have hcy : c - y < ε / 2 := by
        have := (abs_lt.mp hye).1
        linarith
      have hu0 : 0 ≤ 1 - (y / c) ^ 2 := by nlinarith
      have hu1 : 1 - (y / c) ^ 2 ≤ 1 := by nlinarith
      have hu2 : c * (1 - (y / c) ^ 2) ≤ 2 * (c - y) := by
        have e : c * (1 - (y / c) ^ 2) = (c - y) * (1 + y / c) := by
          field_simp
          ring
        rw [e]
        nlinarith
      have hsq : (1 - (y / c) ^ 2) ^ 2 ≤ 1 - (y / c) ^ 2 := by nlinarith
      have hr0 : 0 ≤ y * (1 - (y / c) ^ 2) ^ 2 := by positivity
      rw [abs_of_nonneg hr0]
      have h1 : y * (1 - (y / c) ^ 2) ^ 2 ≤ c * (1 - (y / c) ^ 2) := by
        have := mul_le_mul hle hsq (by positivity) hc.le
        exact this
      linarith
    · have hay : c < |y| := by
        rw [abs_of_pos hy0]
        exact not_le.mp hle
      exact ⟨0, tukeyPenalty_outlier c y hay, by simpa using hε⟩

/-- C5 at a concrete input: cutoff 1/100 with x = 3 and with x = 1/100. -/
theorem tukeyPenalty_zero_from_cutoff_witness :
    tukeyPenalty (Fl.fin 3) (Fl.fin (1 / 100)) = Fl.fin 0 ∧
    tukeyPenalty (Fl.fin (1 / 100)) (Fl.fin (1 / 100)) = Fl.fin 0 :=
  ⟨(tukeyPenalty_zero_from_cutoff (1 / 100) 3 (by norm_num)
      (by rw [abs_of_pos (by norm_num)]; norm_num)).1,
   (tukeyPenalty_zero_from_cutoff (1 / 100) (1 / 100) (by norm_num)
      (by rw [abs_of_pos (by norm_num)])).1⟩

/-- C6: for a cutoff c > 0 and |x| < c, `tukeyPenalty` is x * (1 - (x / c)^2)^2,
which is positive for x > 0, negative for x < 0 and 0 for x = 0. -/
theorem tukeyPenalty_inlier_sign (c x : ℚ) (hc : 0 < c) (hx : |x| < c) :
    ∃ r : ℚ, tukeyPenalty (Fl.fin x) (Fl.fin c) = Fl.fin r ∧
      r = x * (1 - (x / c) ^ 2) ^ 2 ∧
      (0 < x → 0 < r) ∧ (x < 0 → r < 0) ∧ (x = 0 → r = 0) := by
  have hform : tukeyPenalty (Fl.fin x) (Fl.fin c) = Fl.fin (x * (1 - (x / c) ^ 2) ^ 2) :=
    tukeyPenalty_inlier_formula c x hc hx.le
  have hlt : (x / c) ^ 2 < 1 := by
    have h1 : |x / c| < 1 := by
      rw [abs_div, abs_of_pos hc]
      exact (div_lt_one hc).mpr hx
    have := (sq_lt_one_iff_abs_lt_one (x / c)).mpr h1
    exact this
  have hpos : 0 < (1 - (x / c) ^ 2) ^ 2 := by
    have : 0 < 1 - (x / c) ^ 2 := by linarith
    positivity
  refine ⟨x * (1 - (x / c) ^ 2) ^ 2, hform, rfl, ?_, ?_, ?_⟩
  · intro h0
    exact mul_pos h0 hpos
  · intro h0
    exact mul_neg_of_neg_of_pos h0 hpos
  · intro h0
    simp [h0]

/-- C6 at a concrete input: cutoff 1/100 and x = 1/200 give a positive penalty. -/
theorem tukeyPenalty_inlier_sign_witness :
    (0 : ℚ) < 1 / 100 ∧ |(1 / 200 : ℚ)| < 1 / 100 ∧
    ∃ r : ℚ, tukeyPenalty (Fl.fin (1 / 200)) (Fl.fin (1 / 100)) = Fl.fin r ∧ 0 < r := by
  have hc : (0 : ℚ) < 1 / 100 := by norm_num
  have hx : |(1 / 200 : ℚ)| < 1 / 100 := by
    rw [abs_of_pos (by norm_num)]
    norm_num
  obtain ⟨r, h1, _, h3, _, _⟩ := tukeyPenalty_inlier_sign (1 / 100) (1 / 200) hc hx
  exact ⟨hc, hx, r, h1, h3 (by norm_num)⟩

/-- C7: with delta = 0.0001 the Huber expression of the regularisation term is
d^2 / 2 for every d <= delta and delta * d - delta^2 / 2 for every d > delta (so
for every distance d >= 0), and both formulas give delta^2 / 2 at d = delta. -/
theorem huber_piecewise (d : ℚ) :
    huberDelta = 1 / 10000 ∧
    (d ≤ huberDelta → huber huberDelta d = d ^ 2 / 2) ∧
    (huberDelta < d → huber huberDelta d = huberDelta * d - huberDelta ^ 2 / 2) ∧
    huber huberDelta huberDelta = huberDelta ^ 2 / 2 ∧
    huberDelta * huberDelta - huberDelta ^ 2 / 2 = huberDelta ^ 2 / 2 := by
  refine ⟨rfl, ?_, ?_, ?_, ?_⟩
  · intro h
    simp [huber, h]
    ring
  · intro h
    simp [huber, not_le.mpr h]
    ring
  · simp [huber]
    ring
  · ring

/-- C7 at a concrete input: d = 1 lies above delta and d = 0 below. -/
theorem huber_piecewise_witness :
    huber huberDelta 1 = huberDelta * 1 - huberDelta ^ 2 / 2 ∧
    huber huberDelta 0 = 0 ^ 2 / 2 :=
  ⟨(huber_piecewise 1).2.2.1 (by norm_num [huberDelta]),
   (huber_piecewise 0).2.1 (by norm_num [huberDelta])⟩

/-! ## Parameter table -/

/-- A constructor pass keeps the size of the table. -/
theorem ctorStep_length (t : List (Option Addr)) (i : Nat) :
    (ctorStep t i).length = t.length := by
  simp [ctorStep]

/-- A constructor pass overwrites exactly the eight entries of its node. -/
theorem ctorStep_getElem? (t : List (Option Addr)) (i j : Nat) (h : i * 8 + 8 ≤ t.length) :
    (ctorStep t i)[j]? =
      if i * 8 ≤ j ∧ j < i * 8 + 8 then some (some ⟨i, Slot.ofPos (j - i * 8)⟩) else t[j]? := by
  unfold ctorStep
  simp only [List.getElem?_set, List.length_set]
  by_cases h0 : i * 8 ≤ j ∧ j < i * 8 + 8
  · obtain ⟨k, rfl⟩ : ∃ k, j = i * 8 + k := ⟨j - i * 8, by omega⟩
    have hk : k < 8 := by omega
    rw [if_pos h0]
    have e : i * 8 + k - i * 8 = k := by omega
    rw [e]
    interval_cases k <;> simp [Slot.ofPos] <;> omega
  · rw [if_neg h0]
    have h1 : ∀ m, m < 8 → i * 8 + m ≠ j := by intro m hm; omega
    have h2 : i * 8 ≠ j := by omega
    simp [h1, h2]

/-- The table after the first `n` constructor passes. -/
theorem ctorLoop_spec (n : Nat) (t : List (Option Addr)) (h : n * 8 ≤ t.length) :
    ((List.range n).foldl ctorStep t).length = t.length ∧
    ∀ j, ((List.range n).foldl ctorStep t)[j]? =
      if j < n * 8 then some (some ⟨j / 8, Slot.ofPos (j % 8)⟩) else t[j]? := by
  induction n with
  | zero => simp
  | succ n ih =>
    have ih := ih (by omega)
    rw [List.range_succ, List.foldl_append]
    simp only [List.foldl_cons, List.foldl_nil]
    refine ⟨by rw [ctorStep_length, ih.1], ?_⟩
    intro j
    rw [ctorStep_getElem? _ _ _ (by rw [ih.1]; omega), ih.2]
    by_cases h0 : n * 8 ≤ j ∧ j < n * 8 + 8
    · rw [if_pos h0, if_pos (by omega)]
      have e1 : j / 8 = n := by omega
      have e2 : j - n * 8 = j % 8 := by omega
      rw [e1, e2]
    · rw [if_neg h0]
      by_cases h1 : j < n * 8
      · rw [if_pos h1, if_pos (by omega)]
      · rw [if_neg h1, if_neg (by omega)]

/-- The parameter table built by the constructor, entry by entry. -/
theorem params_getElem? (warp : WarpField) (j : Nat) :
    (WarpProblem.new warp).params[j]? =
      if j < warp.nodes.length * 8 then some (some ⟨j / 8, Slot.ofPos (j % 8)⟩) else none := by
  unfold WarpProblem.params WarpProblem.new
  simp only
  rw [(ctorLoop_spec warp.nodes.length _ (by simp)).2 j]
  by_cases h : j < warp.nodes.length * 8
  · simp [h]
  · simp [h]
    omega

/-- The size of the parameter table built by the constructor. -/
theorem params_length (warp : WarpField) :
    (WarpProblem.new warp).params.length = warp.nodes.length * 8 := by
  unfold WarpProblem.params WarpProblem.new
  simp only
  rw [(ctorLoop_spec warp.nodes.length _ (by simp)).1]
  simp

/-- Repeated stores `a[i] = f i` over a list of positions, entry by entry. -/
theorem foldl_set_getElem? (f : Nat → Option Addr) (l : List Nat) (acc : List (Option Addr))
    (j : Nat) :
    (l.foldl (fun a i => a.set i (f i)) acc)[j]? =
      if j ∈ l ∧ j < acc.length then some (f j) else acc[j]? := by
  induction l generalizing acc with
  | nil => simp
  | cons i rest ih =>
    rw [List.foldl_cons, ih, List.length_set, List.getElem?_set]
    by_cases hj : j < acc.length
    · by_cases hr : j ∈ rest
      · simp [hj, hr]
      · by_cases hi : i = j
        · subst hi
          simp [hj, hr]
        · have hi2 : ¬ j = i := fun e => hi e.symm
          simp [hj, hr, hi, hi2]
    · have hnone : acc[j]? = none := by
        rw [List.getElem?_eq_none_iff]
        omega
      by_cases hi : i = j
      · subst hi
        simp [hj, hnone]
      · simp [hj, hi]

/-- The loop of `mutable_epsilon` when every read is inside its vector. -/
theorem mutableEpsilonLoop_spec (p : List (Option Addr)) (il : List Nat)
    (f : Nat → Option Addr) (l : List Nat) (acc : List (Option Addr))
    (h : ∀ i ∈ l, ∃ n, il[i]? = some n ∧ p[n * 8]? = some (f i)) :
    mutableEpsilonLoop p il l acc = some (l.foldl (fun a i => a.set i (f i)) acc) := by
  induction l generalizing acc with
  | nil => simp [mutableEpsilonLoop]
  | cons i rest ih =>
    obtain ⟨n, h1, h2⟩ := h i (by simp)
    simp only [mutableEpsilonLoop, h1, h2, List.foldl_cons]
    exact ih _ (fun i hi => h i (List.mem_cons_of_mem _ hi))

/-- The addresses `mutable_epsilon` collects for in-range node indices. -/
theorem mutableEpsilonLoop_new (warp : WarpField) (index_list : List Nat)
    (hlt : ∀ n ∈ index_list, n < warp.nodes.length) :
    mutableEpsilonLoop (WarpProblem.new warp).parameters_ index_list
        (List.range index_list.length) (List.replicate index_list.length none)
      = some (index_list.map (fun n => some ⟨n, Slot.rotation_w⟩)) := by
  have hp : ∀ n, n < warp.nodes.length →
      (WarpProblem.new warp).parameters_[n * 8]? = some (some ⟨n, Slot.rotation_w⟩) := by
    intro n hn
    have := params_getElem? warp (n * 8)
    unfold WarpProblem.params at this
    rw [this, if_pos (by omega)]
    simp [Slot.ofPos]
  rw [mutableEpsilonLoop_spec _ _
    (fun i => some ⟨index_list.getD i 0, Slot.rotation_w⟩)]
  · congr 1
    apply List.ext_getElem?
    intro j
    rw [foldl_set_getElem?]
    by_cases hj : j < index_list.length
    · simp [hj, List.getD_eq_getElem?_getD, List.getElem?_eq_getElem hj]
    · have hnone : index_list[j]? = none := List.getElem?_eq_none (by omega)
      simp [hj, hnone]
      omega
  · intro i hi
    have hi2 : i < index_list.length := by simpa using hi
    refine ⟨index_list[i], List.getElem?_eq_getElem hi2, ?_⟩
    rw [hp _ (hlt _ (List.getElem_mem hi2))]
    simp [List.getD_eq_getElem?_getD, List.getElem?_eq_getElem hi2]

/-- A member written through its slot is read back. -/
theorem Slot.get_set (s : Slot) (t : DualQuaternion) (v : ℚ) : s.get (s.set t v) = v := by
  cases s <;> rfl

/-- A write through one slot leaves the other members as they were. -/
theorem Slot.get_set_ne (s s2 : Slot) (t : DualQuaternion) (v : ℚ) (h : s2 ≠ s) :
    s2.get (s.set t v) = s2.get t := by
  cases s <;> cases s2 <;> first | rfl | exact absurd rfl h

/-- The node vector after a store, node by node. -/
theorem store_getElem? (nodes : List DeformationNode) (p : Addr) (v : ℚ) (j : Nat) :
    (store nodes p v)[j]? =
      (nodes[j]?).map (fun n => if p.node = j then
        { n with transform := p.slot.set n.transform v } else n) := by
  unfold store
  rw [List.getElem?_modify]
  rfl

/-- C8: over a warp field of N nodes and a list of K node indices all below N,
both overloads of `mutable_epsilon` return the same K addresses; the j-th is
entry `8 * index_list[j]` of the parameter table, the address of the rotation
`w_` of that node, so it depends on the node index alone. -/
theorem mutable_epsilon_addresses (warp : WarpField) (K : Nat) (index_list : List Nat)
    (hlen : index_list.length = K) (hlt : ∀ n ∈ index_list, n < warp.nodes.length) :
    ∃ r : List (Option Addr),
      (WarpProblem.new warp).mutable_epsilon_ptr K index_list = some r ∧
      (WarpProblem.new warp).mutable_epsilon_vec K index_list = some r ∧
      r.length = K ∧
      r = index_list.map (fun n => some (Addr.mk n Slot.rotation_w)) ∧
      ∀ j n : Nat, index_list[j]? = some n →
        r[j]? = (WarpProblem.new warp).params[8 * n]? ∧
        r[j]? = some (some (Addr.mk n Slot.rotation_w)) := by
  subst hlen
  refine ⟨index_list.map (fun n => some (Addr.mk n Slot.rotation_w)), ?_, ?_, by simp, rfl, ?_⟩
  · exact mutableEpsilonLoop_new warp index_list hlt
  · exact mutableEpsilonLoop_new warp index_list hlt
  · intro j n hj
    have hn : n < warp.nodes.length := hlt n (List.getElem?_mem hj)
    have h2 : (List.map (fun n => some (Addr.mk n Slot.rotation_w)) index_list)[j]?
        = some (some (Addr.mk n Slot.rotation_w)) := by
      rw [List.getElem?_map, hj]
      rfl
    refine ⟨?_, h2⟩
    rw [h2, params_getElem?, if_pos (by omega)]
    have e1 : 8 * n / 8 = n := by omega
    have e2 : 8 * n % 8 = 0 := by omega
    rw [e1, e2]
    rfl

/-- C8 at a concrete input: two nodes, index list [1, 0]. -/
theorem mutable_epsilon_addresses_witness :
    (WarpProblem.new twoNodeWarp).mutable_epsilon_ptr 2 [1, 0]
      = some [some ⟨1, Slot.rotation_w⟩, some ⟨0, Slot.rotation_w⟩] ∧
    (WarpProblem.new twoNodeWarp).mutable_epsilon_vec 2 [1, 0]
      = some [some ⟨1, Slot.rotation_w⟩, some ⟨0, Slot.rotation_w⟩] := by
  obtain ⟨r, h1, h2, _, h4, _⟩ :=
    mutable_epsilon_addresses twoNodeWarp 2 [1, 0] rfl (by simp [twoNodeWarp])
  rw [h1, h2, h4]
  exact ⟨rfl, rfl⟩

/-- C9: the table built by the constructor over N nodes has 8 * N entries;
entry 8 * i + k is the address of member k of the transform of node i, in the
order rotation (w, x, y, z), translation (w, x, y, z); what is stored through it
is what the node vector holds for that member of node i afterwards, and what
the node vector holds is what is read through it; no other member of any node,
no vertex and no weight changes, nor does the number of nodes. -/
theorem params_alias_node_storage (warp : WarpField) :
    (WarpProblem.new warp).params.length = 8 * warp.nodes.length ∧
    (∀ t : DualQuaternion,
      [0, 1, 2, 3, 4, 5, 6, 7].map (fun k => (Slot.ofPos k).get t) =
        [t.rotation_.w_, t.rotation_.x_, t.rotation_.y_, t.rotation_.z_,
         t.translation_.w_, t.translation_.x_, t.translation_.y_, t.translation_.z_]) ∧
    ∀ i k : Nat, i < warp.nodes.length → k < 8 →
      (WarpProblem.new warp).params[8 * i + k]? = some (some (Addr.mk i (Slot.ofPos k))) ∧
      (∀ (g : List DeformationNode) (n : DeformationNode), g[i]? = some n →
        load g (Addr.mk i (Slot.ofPos k)) = some ((Slot.ofPos k).get n.transform)) ∧
      ∀ v : ℚ,
        load (store warp.nodes (Addr.mk i (Slot.ofPos k)) v) (Addr.mk i (Slot.ofPos k))
          = some v ∧
        ((store warp.nodes (Addr.mk i (Slot.ofPos k)) v)[i]?).map
          (fun n => (Slot.ofPos k).get n.transform) = some v ∧
        (∀ (j : Nat) (s : Slot), j ≠ i ∨ s ≠ Slot.ofPos k →
          load (store warp.nodes (Addr.mk i (Slot.ofPos k)) v) (Addr.mk j s)
            = load warp.nodes (Addr.mk j s)) ∧
        (store warp.nodes (Addr.mk i (Slot.ofPos k)) v).length = warp.nodes.length ∧
        (∀ j : Nat,
          ((store warp.nodes (Addr.mk i (Slot.ofPos k)) v)[j]?).map
              (fun n => (n.vertex, n.weight))
            = (warp.nodes[j]?).map (fun n => (n.vertex, n.weight))) := by
  refine ⟨by rw [params_length, Nat.mul_comm], fun t => rfl, ?_⟩
  intro i k hi hk
  refine ⟨?_, ?_, ?_⟩
  · rw [params_getElem?, if_pos (by omega)]
    have e1 : (8 * i + k) / 8 = i := by omega
    have e2 : (8 * i + k) % 8 = k := by omega
    rw [e1, e2]
  · intro g n hg
    simp [load, hg]
  · intro v
    have hload : load (store warp.nodes (Addr.mk i (Slot.ofPos k)) v) (Addr.mk i (Slot.ofPos k))
        = some v := by
      simp [load, store_getElem?, List.getElem?_eq_getElem hi, Slot.get_set]
    refine ⟨hload, hload, ?_, ?_, ?_⟩
    · intro j s hne
      simp only [load, store_getElem?]
      cases hj : warp.nodes[j]? with
      | none => rfl
      | some n =>
        by_cases hij : i = j
        · subst hij
          have hs : s ≠ Slot.ofPos k := by
            rcases hne with h | h
            · exact absurd rfl h
            · exact h
          simp [Slot.get_set_ne _ _ _ _ hs]
        · simp [hij]
    · simp [store]
    · intro j
      rw [store_getElem?]
      cases warp.nodes[j]? with
      | none => rfl
      | some n =>
        by_cases hij : i = j
        · simp [hij]
        · simp [hij]

/-- C9 at a concrete input: node 1 of two nodes, member 5 (translation `x_`),
value 7. -/
theorem params_alias_node_storage_witness :
    (WarpProblem.new twoNodeWarp).params[8 * 1 + 5]?
      = some (some (Addr.mk 1 Slot.translation_x)) ∧
    load (store twoNodeWarp.nodes (Addr.mk 1 Slot.translation_x) 7)
      (Addr.mk 1 Slot.translation_x) = some 7 ∧
    load (store twoNodeWarp.nodes (Addr.mk 1 Slot.translation_x) 7)
      (Addr.mk 0 Slot.translation_x)
      = load twoNodeWarp.nodes (Addr.mk 0 Slot.translation_x) := by
  have h := (params_alias_node_storage twoNodeWarp).2.2 1 5
    (by simp [twoNodeWarp]) (by norm_num)
  exact ⟨h.1, (h.2.2 7).1, (h.2.2 7).2.2.1 0 Slot.translation_x (Or.inl (by norm_num))⟩

/-! ## Regularisation term -/

/-- C10: two neighbours that hold the same parameter block (roll 1, everything
else 0) with weights 1/2 and 1/2 are in perfect consensus: every candidate
transform is the same and the weights sum to 1. The call nevertheless returns
the residual 139999/400000000, not 0: `Tic` is built from the zero orientation
for every choice of the external functions, while each `Tjc` carries the
rotation of the block, so the node at (1, 2, 3) is moved differently. -/
theorem regEnergy_consensus_residual_nonzero :
    halfWeightTerm.weights_ 0 + halfWeightTerm.weights_ 1 = 1 ∧
    (∀ k : Nat, rollBlocks 0 k = rollBlocks 1 k) ∧
    jWarp ratPrims rollBlocks 0 = jWarp ratPrims rollBlocks 1 ∧
    (∀ P : Prims,
      (iWarp P halfWeightTerm.weights_ rollBlocks 2).linear = P.rodrigues ⟨0, 0, 0⟩ ∧
      (jWarp P rollBlocks 0).linear = P.rodrigues ⟨1, 0, 0⟩ ∧
      (jWarp P rollBlocks 1).linear = P.rodrigues ⟨1, 0, 0⟩) ∧
    halfWeightTerm.call ratPrims 2 rollBlocks
      = Outcome.returned true (some (139999 / 400000000)) ∧
    halfWeightTerm.call ratPrims 2 rollBlocks ≠ Outcome.returned true (some 0) := by
  have h : halfWeightTerm.call ratPrims 2 rollBlocks
      = Outcome.returned true (some (139999 / 400000000)) := by
    simp [DynamicFusionRegEnergy.call, regLoop, iWarp, jWarp, quaternionSums,
      Affine3.ofRvec, Affine3.concatenate, Affine3.apply, Matx33.mul, Matx33.mulVec,
      Matx33.col0, Matx33.col1, Matx33.col2, CvVec3.dot, CvVec3.add, CvVec3.sub,
      Quaternion.add, Quaternion.smul, huber, huberDelta, ratPrims, rollBlocks,
      halfWeightTerm, node0, node1, List.range_succ]
    norm_num
  refine ⟨by norm_num [halfWeightTerm], fun k => rfl, rfl, fun P => ⟨rfl, rfl, rfl⟩, h, ?_⟩
  rw [h]
  simp

/-- The second loop stops with the exception of `at` when some remaining
neighbour index is not a position of the node vector. -/
theorem regLoop_outOfRange (P : Prims) (self : DynamicFusionRegEnergy)
    (epsilon_ : Nat → Nat → ℚ) (Tic : Affine3) (l : List Nat) (sum_j : ℚ)
    (hread : ∀ i ∈ l, ∃ idx, self.ret_index_[i]? = some idx)
    (hbad : ∃ i ∈ l, ∃ idx, self.ret_index_[i]? = some idx ∧ self.nodes_.length ≤ idx) :
    regLoop P self epsilon_ Tic l sum_j = Outcome.outOfRange := by
  induction l generalizing sum_j with
  | nil =>
    obtain ⟨i, hi, _⟩ := hbad
    simp at hi
  | cons i rest ih =>
    obtain ⟨idx, h1⟩ := hread i (by simp)
    by_cases h2 : idx < self.nodes_.length
    · have h3 : self.nodes_[idx]? = some (self.nodes_[idx]) := List.getElem?_eq_getElem h2
      simp only [regLoop, h1, h3]
      apply ih
      · exact fun j hj => hread j (List.mem_cons_of_mem _ hj)
      · obtain ⟨j, hj, idx2, hj1, hj2⟩ := hbad
        rcases List.mem_cons.mp hj with e | hmem
        · subst e
          rw [h1] at hj1
          have e2 : idx = idx2 := Option.some.inj hj1
          omega
        · exact ⟨j, hmem, idx2, hj1, hj2⟩
    · have h3 : self.nodes_[idx]? = none := List.getElem?_eq_none (by omega)
      simp only [regLoop, h1, h3]

/-- C11: when `ret_index_` holds the K neighbour indices and one of them is not
below the number of nodes, `DynamicFusionRegEnergy::operator()` ends with the
exception of the bounds-checked `at`; it does not return, with or without a
residual. -/
theorem regEnergy_bad_index_throws (P : Prims) (K : Nat) (self : DynamicFusionRegEnergy)
    (epsilon_ : Nat → Nat → ℚ) (hlen : K ≤ self.ret_index_.length)
    (hbad : ∃ i, i < K ∧ ∃ idx, self.ret_index_[i]? = some idx ∧ self.nodes_.length ≤ idx) :
    self.call P K epsilon_ = Outcome.outOfRange ∧
    ∀ (b : Bool) (r : Option ℚ), self.call P K epsilon_ ≠ Outcome.returned b r := by
  have h : self.call P K epsilon_ = Outcome.outOfRange := by
    unfold DynamicFusionRegEnergy.call
    apply regLoop_outOfRange
    · intro i hi
      have hi2 : i < self.ret_index_.length := lt_of_lt_of_le (List.mem_range.mp hi) hlen
      exact ⟨self.ret_index_[i], List.getElem?_eq_getElem hi2⟩
    · obtain ⟨i, hi, rest⟩ := hbad
      exact ⟨i, List.mem_range.mpr hi, rest⟩
  refine ⟨h, ?_⟩
  intro b r
  rw [h]
  simp

/-- C11 at a concrete input: two nodes and the neighbour indices [0, 5]. -/
theorem regEnergy_bad_index_throws_witness :
    2 ≤ badIndexTerm.ret_index_.length ∧
    badIndexTerm.ret_index_[1]? = some 5 ∧ badIndexTerm.nodes_.length ≤ 5 ∧
    badIndexTerm.call ratPrims 2 consensusBlocks = Outcome.outOfRange :=
  ⟨by simp [badIndexTerm], rfl, by simp [badIndexTerm],
   (regEnergy_bad_index_throws ratPrims 2 badIndexTerm consensusBlocks
      (by simp [badIndexTerm])
      ⟨1, by norm_num, 5, rfl, by simp [badIndexTerm]⟩).1⟩

/-- C12: the orientation from which `i_warp`, and so `Tic`, is built is the zero
vector for every input, not the Euler triple decoded from the accumulated
rotation quaternion: for one neighbour with weight 1 and roll 1 the decoded
triple of the branch-local `i_rot` is not zero, and the transform built from it
differs from the `i_warp` of the code. -/
theorem iWarp_orientation_not_decoded :
    (∀ (P : Prims) (w : Nat → ℚ) (e : Nat → Nat → ℚ) (K : Nat),
      (iWarp P w e K).linear = P.rodrigues ⟨0, 0, 0⟩) ∧
    branchLocalIRot ratPrims (quaternionSums ratPrims (fun _ => 1) rollBlocks 1).1
      = ⟨2, 0, 0⟩ ∧
    (iWarp ratPrims (fun _ => 1) rollBlocks 1).linear
      = ⟨⟨1, 0, 0⟩, ⟨0, 1, 0⟩, ⟨0, 0, 1⟩⟩ ∧
    (iWarpDecoded ratPrims (fun _ => 1) rollBlocks 1).linear
      = ⟨⟨1, 0, 0⟩, ⟨0, 1, -2⟩, ⟨0, 2, 1⟩⟩ ∧
    iWarp ratPrims (fun _ => 1) rollBlocks 1 ≠ iWarpDecoded ratPrims (fun _ => 1) rollBlocks 1 := by
  have hq : (quaternionSums ratPrims (fun _ => 1) rollBlocks 1).1 = ⟨1, 1 / 2, 0, 0⟩ := by
    simp [quaternionSums, ratPrims, rollBlocks, Quaternion.add, Quaternion.smul,
      List.range_succ]
  have hrot : branchLocalIRot ratPrims (quaternionSums ratPrims (fun _ => 1) rollBlocks 1).1
      = ⟨2, 0, 0⟩ := by
    rw [hq]
    simp [branchLocalIRot, ratPrims]
    norm_num
  have h1 : (iWarp ratPrims (fun _ => 1) rollBlocks 1).linear
      = ⟨⟨1, 0, 0⟩, ⟨0, 1, 0⟩, ⟨0, 0, 1⟩⟩ := by
    simp [iWarp, Affine3.ofRvec, ratPrims]
  have h2 : (iWarpDecoded ratPrims (fun _ => 1) rollBlocks 1).linear
      = ⟨⟨1, 0, 0⟩, ⟨0, 1, -2⟩, ⟨0, 2, 1⟩⟩ := by
    simp only [iWarpDecoded, Affine3.ofRvec, hrot]
    simp [ratPrims]
  refine ⟨fun P w e K => rfl, hrot, h1, h2, ?_⟩
  intro he
  have hl := congrArg Affine3.linear he
  rw [h1, h2] at hl
  have h3 := congrArg (fun m => m.r1.c2) hl
  norm_num at h3

/-- C13: the outcome of `DynamicFusionDataEnergy::operator()`, success flag and
residual, is the same for any two parameter arguments `epsilon_`. -/
theorem dataEnergy_ignores_epsilon (self : DynamicFusionDataEnergy)
    (epsilon_1 epsilon_2 : Nat → Nat → Fl) :
    self.call epsilon_1 = self.call epsilon_2 := rfl

/-- The quaternion sums read positions 0 to 5 of each block only. -/
theorem quaternionSums_congr (P : Prims) (w : Nat → ℚ) (e1 e2 : Nat → Nat → ℚ) (K : Nat)
    (h : ∀ i, i < K → ∀ k, k < 6 → e1 i k = e2 i k) :
    quaternionSums P w e1 K = quaternionSums P w e2 K := by
  unfold quaternionSums
  apply List.foldl_ext
  intro acc i hi
  have hi2 : i < K := List.mem_range.mp hi
  simp only [h i hi2 0 (by norm_num), h i hi2 1 (by norm_num), h i hi2 2 (by norm_num),
    h i hi2 3 (by norm_num), h i hi2 4 (by norm_num), h i hi2 5 (by norm_num)]

/-- The transform `j_warp` reads positions 0 to 5 of its block only. -/
theorem jWarp_congr (P : Prims) (e1 e2 : Nat → Nat → ℚ) (i : Nat)
    (h : ∀ k, k < 6 → e1 i k = e2 i k) : jWarp P e1 i = jWarp P e2 i := by
  unfold jWarp
  simp only [h 0 (by norm_num), h 1 (by norm_num), h 2 (by norm_num),
    h 3 (by norm_num), h 4 (by norm_num), h 5 (by norm_num)]

/-- The second loop reads positions 0 to 5 of the blocks only. -/
theorem regLoop_congr (P : Prims) (self : DynamicFusionRegEnergy)
    (e1 e2 : Nat → Nat → ℚ) (Tic : Affine3) (l : List Nat) (sum_j : ℚ)
    (h : ∀ i ∈ l, ∀ k, k < 6 → e1 i k = e2 i k) :
    regLoop P self e1 Tic l sum_j = regLoop P self e2 Tic l sum_j := by
  induction l generalizing sum_j with
  | nil => rfl
  | cons i rest ih =>
    have hj := jWarp_congr P e1 e2 i (h i (by simp))
    have ihr := fun s => ih s (fun j hj => h j (List.mem_cons_of_mem _ hj))
    cases h1 : self.ret_index_[i]? with
    | none => simp only [regLoop, h1]
    | some idx =>
      cases h3 : self.nodes_[idx]? with
      | none => simp only [regLoop, h1, h3]
      | some node => simp only [regLoop, h1, h3, hj, ihr]

/-- C14: two inputs that agree on positions 0 to 5 of the block of every
neighbour i < K give the same outcome of `DynamicFusionRegEnergy::operator()`,
and so the same residual, whatever they hold at positions 6 and 7. -/
theorem regEnergy_reads_six_scalars (P : Prims) (K : Nat) (self : DynamicFusionRegEnergy)
    (e1 e2 : Nat → Nat → ℚ) (h : ∀ i, i < K → ∀ k, k < 6 → e1 i k = e2 i k) :
    self.call P K e1 = self.call P K e2 := by
  unfold DynamicFusionRegEnergy.call iWarp
  rw [quaternionSums_congr P self.weights_ e1 e2 K h]
  exact regLoop_congr P self e1 e2 _ (List.range K) 0
    (fun i hi => h i (List.mem_range.mp hi))

/-- C14 at a concrete input: blocks that differ at positions 6 and 7 only. -/
theorem regEnergy_reads_six_scalars_witness :
    consensusBlocks 0 6 ≠ paddedBlocks 0 6 ∧ consensusBlocks 1 7 ≠ paddedBlocks 1 7 ∧
    consensusTerm.call ratPrims 2 consensusBlocks = consensusTerm.call ratPrims 2 paddedBlocks := by
  refine ⟨by simp [consensusBlocks, paddedBlocks], by simp [consensusBlocks, paddedBlocks], ?_⟩
  apply regEnergy_reads_six_scalars
  intro i _ k hk
  interval_cases k <;> rfl

/-- The Huber expression is not negative for a distance that is not negative. -/
theorem huber_nonneg (d : ℚ) (hd : 0 ≤ d) : 0 ≤ huber huberDelta d := by
  unfold huber huberDelta
  split
  · positivity
  · rename_i h
    have := not_le.mp h
    nlinarith

/-- The distance of a neighbour is not negative when `sqrt` is not. -/
theorem neighbourDist_nonneg (P : Prims) (self : DynamicFusionRegEnergy)
    (epsilon_ : Nat → Nat → ℚ) (Tic : Affine3) (i : Nat)
    (hsqrt : ∀ q, 0 ≤ q → 0 ≤ P.sqrt q) :
    0 ≤ neighbourDist P self epsilon_ Tic i := by
  unfold neighbourDist
  split
  · exact le_refl _
  · split
    · exact le_refl _
    · apply hsqrt
      positivity

/-- The second loop adds `weights_[i] * huber(dist_i)` for every remaining
neighbour whose index is a position of the node vector. -/
theorem regLoop_sum (P : Prims) (self : DynamicFusionRegEnergy)
    (epsilon_ : Nat → Nat → ℚ) (Tic : Affine3) (l : List Nat) (sum_j : ℚ)
    (hidx : ∀ i ∈ l, ∃ idx, self.ret_index_[i]? = some idx ∧ idx < self.nodes_.length) :
    regLoop P self epsilon_ Tic l sum_j = Outcome.returned true (some (sum_j +
      (l.map (fun i => self.weights_ i *
        huber huberDelta (neighbourDist P self epsilon_ Tic i))).sum)) := by
  induction l generalizing sum_j with
  | nil => simp [regLoop]
  | cons i rest ih =>
    obtain ⟨idx, h1, h2⟩ := hidx i (by simp)
    have h3 : self.nodes_[idx]? = some (self.nodes_[idx]) := List.getElem?_eq_getElem h2
    have hd : neighbourDist P self epsilon_ Tic i =
        P.sqrt ((((Tic.apply (self.nodes_[idx]).vertex).sub
            ((self.inverse_pose_.concatenate (jWarp P epsilon_ i)).apply
              (self.nodes_[idx]).vertex)).c0) ^ 2 +
          (((Tic.apply (self.nodes_[idx]).vertex).sub
            ((self.inverse_pose_.concatenate (jWarp P epsilon_ i)).apply
              (self.nodes_[idx]).vertex)).c1) ^ 2 +
          (((Tic.apply (self.nodes_[idx]).vertex).sub
            ((self.inverse_pose_.concatenate (jWarp P epsilon_ i)).apply
              (self.nodes_[idx]).vertex)).c2) ^ 2) := by
      simp only [neighbourDist, h1, h3]
    simp only [regLoop, h1, h3]
    rw [ih _ (fun j hj => hidx j (List.mem_cons_of_mem _ hj)), List.map_cons, List.sum_cons,
      hd, add_assoc]

/-- C15: when the K weights are not negative and the K neighbour indices are
positions of the node vector (and `sqrt` of a non-negative number is not
negative), `DynamicFusionRegEnergy::operator()` returns success and the residual
it writes is the sum over the neighbours of `weights_[i] * huber(dist_i)`, every
`dist_i` and every Huber value being at least 0, so the residual is at least 0. -/
theorem regEnergy_weighted_huber_sum (P : Prims) (K : Nat) (self : DynamicFusionRegEnergy)
    (epsilon_ : Nat → Nat → ℚ) (hsqrt : ∀ q, 0 ≤ q → 0 ≤ P.sqrt q)
    (hw : ∀ i, i < K → 0 ≤ self.weights_ i)
    (hidx : ∀ i, i < K → ∃ idx, self.ret_index_[i]? = some idx ∧ idx < self.nodes_.length) :
    ∃ (r : ℚ) (dist : Nat → ℚ),
      self.call P K epsilon_ = Outcome.returned true (some r) ∧
      dist = neighbourDist P self epsilon_
        (self.inverse_pose_.concatenate (iWarp P self.weights_ epsilon_ K)) ∧
      r = ((List.range K).map (fun i => self.weights_ i * huber huberDelta (dist i))).sum ∧
      (∀ i, 0 ≤ dist i ∧ 0 ≤ huber huberDelta (dist i)) ∧
      0 ≤ r := by
  have hd := fun i => neighbourDist_nonneg P self epsilon_
    (self.inverse_pose_.concatenate (iWarp P self.weights_ epsilon_ K)) i hsqrt
  refine ⟨_, _, ?_, rfl, rfl, fun i => ⟨hd i, huber_nonneg _ (hd i)⟩, ?_⟩
  · unfold DynamicFusionRegEnergy.call
    rw [regLoop_sum P self epsilon_ _ (List.range K) 0
      (fun i hi => hidx i (List.mem_range.mp hi)), zero_add]
  · apply List.sum_nonneg
    intro x hx
    obtain ⟨i, hi, rfl⟩ := List.mem_map.mp hx
    exact mul_nonneg (hw i (List.mem_range.mp hi)) (huber_nonneg _ (hd i))

/-- C15 at a concrete input: the term `consensusTerm` with both weights 1 and
non-consensus blocks `rollBlocks`. -/
theorem regEnergy_weighted_huber_sum_witness :
    ∃ r : ℚ, consensusTerm.call ratPrims 2 rollBlocks = Outcome.returned true (some r) ∧
      0 ≤ r := by
  obtain ⟨r, _, h1, _, _, _, h5⟩ :=
    regEnergy_weighted_huber_sum ratPrims 2 consensusTerm rollBlocks
      (by
        intro q hq
        simp only [ratPrims]
        split
        · exact le_refl 0
        · linarith)
      (by
        intro i _
        simp [consensusTerm])
      (by
        intro i hi
        interval_cases i
        · exact ⟨0, rfl, by simp [consensusTerm]⟩
        · exact ⟨1, rfl, by simp [consensusTerm]⟩)
  exact ⟨r, h1, h5⟩

end DynamicFusion
